import Mathlib

/-!
Verification development for the `metascraper` package: a shallow embedding
of its token-stream interpreters (`MetaReader`, `SchemaReader`, `PageReader`),
its dispatch loop (`Page.Read`) and the `Scrape` wrapper, together with
theorems settling the specification's claims about them.

Modelling conventions:
* A tokenizer event (`Tok`) is a start tag with its already-built attribute
  map, an end tag, a text node, or a self-closing tag.  `Page.Read` in the
  source handles a self-closing tag as a start immediately followed by an end,
  and the loop stops at the tokenizer's `ErrorToken`; here a run processes a
  token list and the terminating error is passed separately.
* Go attribute maps (built by `AttrMap`, last write wins, keys unique) are
  association lists; a missing key reads as `""` exactly like a Go map.
* The Go code aborts the whole process with `log.Fatalln` at two places and
  would panic on a slice underflow in `SchemaReader.pop`; every operation
  that can reach such an abort returns an `Option`, `none` meaning the
  process died.
* Go slices grow at the end, so stacks here are lists whose top is the last
  element (`List.getLast?` / `List.dropLast`).
* `SchemaReader.next` in Go links the freshly pushed scope into its parent's
  `Children` (or into `items`) immediately and later mutates it through the
  shared pointer while it sits on the stack.  Functionally, the scope under
  construction lives only on the stack and is attached to its parent when it
  is popped; because pushes and pops are LIFO and a parent cannot acquire
  further children after an unpopped child, the resulting trees agree with
  the pointer-mutating original for every scope that is closed before the
  stream ends.
-/

namespace Metascraper

/-- Attribute map of one tag, as built by `AttrMap`: an association list with
unique keys; lookup of a missing key yields the Go zero value `""`. -/
def Attrs := List (String × String)

/-- Read `attrs[k]` with Go map semantics: `""` when the key is absent. -/
def attrGet (attrs : Attrs) (k : String) : String :=
  match List.lookup k attrs with
  | some v => v
  | none => ""

/-- Test `_, ok := attrs[k]` with Go map semantics. -/
def attrHas (attrs : Attrs) (k : String) : Bool :=
  (List.lookup k attrs).isSome

/-- Check whether `attrs` is the empty map (`len(attrs) == 0`). -/
def attrsEmpty (attrs : Attrs) : Bool :=
  match attrs with
  | [] => true
  | _ :: _ => false

/-- Go `strings.HasPrefix s pre`, computed on the underlying character
lists. -/
def strHasPre (s pre : String) : Bool :=
  List.isPrefixOf pre.data s.data

/-- Tokenizer events consumed by the `Page.Read` loop. -/
inductive Tok where
  | start (tn : String) (attrs : Attrs)
  | endTag (tn : String)
  | text (s : String)
  | selfClosing (tn : String) (attrs : Attrs)

/-- Meta represents a `meta` tag in the head of an HTML document
(`meta.go`); `Extra` collects subsequent adjacent metadata with this
property prefix.  An inductive type because the structure is recursive. -/
inductive Meta where
  | mk (Property Content Name : String) (Extra : List Meta)

/-- The tag's property attribute, if any. -/
def Meta.Property : Meta → String
  | ⟨p, _, _, _⟩ => p

/-- The tag's content attribute or text content, if any. -/
def Meta.Content : Meta → String
  | ⟨_, c, _, _⟩ => c

/-- The tag's name attribute, if any. -/
def Meta.Name : Meta → String
  | ⟨_, _, n, _⟩ => n

/-- Subsequent adjacent metadata with this property prefix. -/
def Meta.Extra : Meta → List Meta
  | ⟨_, _, _, e⟩ => e

/-- MetaReader state (`meta.go`): the top-level result sequence, whether the
cursor is inside an open `meta` element, and whether it is inside the head. -/
structure MetaReader where
  items : List Meta
  inside : Bool
  inHead : Bool

/-- The zero-valued `MetaReader{}` the package starts from. -/
def MetaReader.init : MetaReader := ⟨[], false, false⟩

/-- Go `MetaReader.current`: the last top-level item, `none` playing the role
of `exists == false`. -/
def MetaReader.current (r : MetaReader) : Option Meta :=
  r.items.getLast?

/-- Go `MetaReader.makeCurrentExtra`: pop the last item and append it to the
`Extra` of the new last item.  `none` models the `log.Fatalln` abort "No
prior meta tag to associate the current tag with." (and the slice underflow
of `pop` on an empty item list). -/
def MetaReader.makeCurrentExtra (r : MetaReader) : Option MetaReader :=
  match r.items.getLast? with
  | none => none
  | some e =>
    let r1 : MetaReader := { r with items := r.items.dropLast }
    match r1.items.getLast? with
    | none => none
    | some cur =>
      some { r1 with
        items := r1.items.dropLast ++ [⟨cur.Property, cur.Content, cur.Name, cur.Extra ++ [e]⟩] }

/-- Go `MetaReader.HandleStart`: meta tags outside the head are ignored; a
meta tag in the head appends a fresh `Meta` built from the `property`,
`content` and `name` attributes, and folds it into the previous top-level
item's `Extra` when its property extends the previous property by `":"`. -/
def MetaReader.HandleStart (r : MetaReader) (tn : String) (attrs : Attrs) : Option MetaReader :=
  if tn = "head" then some { r with inHead := true }
  else if tn = "meta" then
    if !r.inHead then some r
    else
      let r1 : MetaReader := { r with inside := true }
      let cur? := r1.current
      let m : Meta := ⟨attrGet attrs "property", attrGet attrs "content", attrGet attrs "name", []⟩
      let r2 : MetaReader := { r1 with items := r1.items ++ [m] }
      match cur? with
      | some cur =>
        if strHasPre m.Property (cur.Property ++ ":") then r2.makeCurrentExtra
        else some r2
      | none => some r2
  else some r

/-- Go `MetaReader.HandleEnd`. -/
def MetaReader.HandleEnd (r : MetaReader) (tn : String) : MetaReader :=
  if tn = "head" then { r with inHead := false }
  else if tn = "meta" then { r with inside := false }
  else r

/-- Go `MetaReader.HandleText`: inside an open meta element in the head, the
text becomes the content of the current (last top-level) item when that item
has empty content. -/
def MetaReader.HandleText (r : MetaReader) (text : String) : MetaReader :=
  if r.inside && r.inHead then
    match r.items.getLast? with
    | some cur =>
      if cur.Content = "" then
        { r with items := r.items.dropLast ++ [⟨cur.Property, cur.Content ++ text, cur.Name, cur.Extra⟩] }
      else r
    | none => r
  else r

/-- Go `MetaReader.Done`: no cleanup. -/
def MetaReader.Done (r : MetaReader) : MetaReader := r

/-- One `Page.Read` loop iteration restricted to the `MetaReader`
interpreter; a self-closing tag is a start immediately followed by an end. -/
def metaStep (r : MetaReader) : Tok → Option MetaReader
  | .start tn attrs => r.HandleStart tn attrs
  | .endTag tn => some (r.HandleEnd tn)
  | .text s => some (r.HandleText s)
  | .selfClosing tn attrs => (r.HandleStart tn attrs).map (fun r1 => r1.HandleEnd tn)

/-- Run the `MetaReader` interpreter over a whole token stream from the
zero-valued initial state. -/
def runMeta (toks : List Tok) : Option MetaReader :=
  List.foldlM metaStep MetaReader.init toks

/-- ItemProp represents a simple schema.org itemprop (`SchemaReader`
source file). -/
structure ItemProp where
  TagName : String
  ItemProp : String
  Content : String
  HREF : String
  DateTime : String

/-- ItemScope represents a schema.org itemscope; `Props` collects simple
itemprops, `Children` nested itemscopes.  An inductive type because the
structure is recursive. -/
inductive ItemScope where
  | mk (tagName itemType itemPropName : String) (props : List ItemProp)
       (children : List ItemScope)

/-- The tag name of the outer element of the itemscope. -/
def ItemScope.TagName : ItemScope → String
  | ⟨tn, _, _, _, _⟩ => tn

/-- The itemtype attribute. -/
def ItemScope.ItemType : ItemScope → String
  | ⟨_, it, _, _, _⟩ => it

/-- If this itemscope is nested, the name of the complex property it plays
for its parent. -/
def ItemScope.ItemProp : ItemScope → String
  | ⟨_, _, ip, _, _⟩ => ip

/-- Simple itemprops belonging to this scope. -/
def ItemScope.Props : ItemScope → List Metascraper.ItemProp
  | ⟨_, _, _, ps, _⟩ => ps

/-- Complex itemprops (nested scopes) belonging to this scope. -/
def ItemScope.Children : ItemScope → List ItemScope
  | ⟨_, _, _, _, ch⟩ => ch

/-- Append a simple prop to a scope (`s.Props = append(s.Props, ...)`). -/
def ItemScope.addProp : ItemScope → Metascraper.ItemProp → ItemScope
  | ⟨tn, it, ip, ps, ch⟩, p => ⟨tn, it, ip, ps ++ [p], ch⟩

/-- Append a nested scope to a scope's children
(`cur.Children = append(cur.Children, s)`). -/
def ItemScope.addChild : ItemScope → ItemScope → ItemScope
  | ⟨tn, it, ip, ps, ch⟩, c => ⟨tn, it, ip, ps, ch ++ [c]⟩

/-- Overwrite the content of the most recently appended prop
(`s.Props[len(s.Props)-1].Content = string(text)`). -/
def ItemScope.setLastPropContent : ItemScope → String → ItemScope
  | ⟨tn, it, ip, ps, ch⟩, t =>
    match ps.getLast? with
    | none => ⟨tn, it, ip, ps, ch⟩
    | some p => ⟨tn, it, ip, ps.dropLast ++ [{ p with Content := t }], ch⟩

/-- SchemaReader state: top-level `items`, the stack of open scopes (the
scope under construction sits on the stack and is attached to its parent
when popped — see the module docstring), the marker stack `breadcrumbs`,
and the `insideProp` / `inHead` flags. -/
structure SchemaReader where
  items : List ItemScope
  stack : List ItemScope
  breadcrumbs : List Bool
  insideProp : Bool
  inHead : Bool

/-- The zero-valued `SchemaReader{}` the package starts from. -/
def SchemaReader.init : SchemaReader := ⟨[], [], [], false, false⟩

/-- Go `SchemaReader.current`: top of the scope stack, `none` playing the
role of the `false` flag. -/
def SchemaReader.current (r : SchemaReader) : Option ItemScope :=
  r.stack.getLast?

/-- Go `SchemaReader.next`: push a fresh scope onto the stack.  (The source
also links the fresh scope into `items` or the parent's `Children` here,
through a pointer it keeps mutating; in this functional rendering the
attachment is performed by `pop`, which yields the same final trees for
every scope closed before end-of-stream.) -/
def SchemaReader.next (r : SchemaReader) : SchemaReader :=
  { r with stack := r.stack ++ [(⟨"", "", "", [], []⟩ : ItemScope)] }

/-- Go `SchemaReader.pop`: remove the top scope; here this is also where the
finished scope is attached to the new top's `Children`, or to `items` when
the stack empties.  `none` models the slice-underflow panic of
`r.stack[:len(r.stack)-1]` on an empty stack. -/
def SchemaReader.pop (r : SchemaReader) : Option SchemaReader :=
  match r.stack.getLast? with
  | none => none
  | some s =>
    let rest := r.stack.dropLast
    match rest.getLast? with
    | none => some { r with stack := rest, items := r.items ++ [s] }
    | some parent =>
      some { r with stack := rest.dropLast ++ [parent.addChild s] }

/-- Go `SchemaReader.HandleStart`: set `inHead` on `head`; return early when
in the head or when the tag has no attributes (note: in that early return
the source pushes no marker); push a scope and a `true` marker for an
`itemscope` tag; append an `ItemProp` to the current scope (and push a
`false` marker) for an `itemprop` tag inside an active scope; otherwise
push a `false` marker only. -/
def SchemaReader.HandleStart (r : SchemaReader) (tn : String) (attrs : Attrs) : SchemaReader :=
  let r := if tn = "head" then { r with inHead := true } else r
  if r.inHead || attrsEmpty attrs then r
  else
    let cur? := r.current
    if attrHas attrs "itemscope" then
      let r1 := r.next
      { r1 with
        stack := r1.stack.dropLast ++
          [(⟨tn, attrGet attrs "itemtype", attrGet attrs "itemprop", [], []⟩ : ItemScope)],
        breadcrumbs := r1.breadcrumbs ++ [true] }
    else
      match cur? with
      | some s =>
        match List.lookup "itemprop" attrs with
        | some itemprop =>
          { r with
            stack := r.stack.dropLast ++
              [s.addProp ⟨tn, itemprop, attrGet attrs "content", attrGet attrs "href",
                attrGet attrs "datetime"⟩],
            insideProp := true,
            breadcrumbs := r.breadcrumbs ++ [false] }
        | none => { r with breadcrumbs := r.breadcrumbs ++ [false] }
      | none => { r with breadcrumbs := r.breadcrumbs ++ [false] }

/-- Go `SchemaReader.HandleEnd`: inside the head only a `head` end tag is
acted on; otherwise clear `insideProp`, pop the marker stack when non-empty
and pop the scope stack when the popped marker is `true`. -/
def SchemaReader.HandleEnd (r : SchemaReader) (tn : String) : Option SchemaReader :=
  if r.inHead then
    if tn = "head" then some { r with inHead := false } else some r
  else
    let r1 : SchemaReader := { r with insideProp := false }
    match r1.breadcrumbs.getLast? with
    | none => some r1
    | some shouldPop =>
      let r2 : SchemaReader := { r1 with breadcrumbs := r1.breadcrumbs.dropLast }
      if shouldPop then r2.pop else some r2

/-- Go `SchemaReader.HandleText`: while inside a property, overwrite the
content of the current scope's most recently appended prop.  `none` models
the `log.Fatalln` abort "No prop to set content from text node" taken when
no scope exists or the current scope has no props. -/
def SchemaReader.HandleText (r : SchemaReader) (text : String) : Option SchemaReader :=
  if r.insideProp then
    match r.stack.getLast? with
    | none => none
    | some s =>
      match s.Props with
      | [] => none
      | _ :: _ => some { r with stack := r.stack.dropLast ++ [s.setLastPropContent text] }
  else some r

/-- Go `SchemaReader.Done`: no cleanup. -/
def SchemaReader.Done (r : SchemaReader) : SchemaReader := r

/-- One `Page.Read` loop iteration restricted to the `SchemaReader`
interpreter; a self-closing tag is a start immediately followed by an end. -/
def schemaStep (r : SchemaReader) : Tok → Option SchemaReader
  | .start tn attrs => some (r.HandleStart tn attrs)
  | .endTag tn => r.HandleEnd tn
  | .text s => r.HandleText s
  | .selfClosing tn attrs => (r.HandleStart tn attrs).HandleEnd tn

/-- Run the `SchemaReader` interpreter over a whole token stream from the
zero-valued initial state. -/
def runSchema (toks : List Tok) : Option SchemaReader :=
  List.foldlM schemaStep SchemaReader.init toks

/-- Character class of the RE2 pattern `[\n\r]` used by `lineFeedReplacer`. -/
def isLFCR (c : Char) : Bool :=
  c = '\n' || c = '\r'

/-- Character class of the RE2 pattern `\s` (that is, `[\t\n\f\r ]`) used by
`whitespaceReplacer`; the byte stream is modelled one character per byte. -/
def isRESpace (c : Char) : Bool :=
  c = '\t' || c = '\n' || c = Char.ofNat 12 || c = '\r' || c = ' '

/-- Character class of `unicode.IsSpace` as used by `strings.TrimSpace`,
restricted to the Latin-1 range (the ASCII whitespace characters plus
U+0085 and U+00A0); the byte stream is modelled one character per byte. -/
def isGoSpace (c : Char) : Bool :=
  c = '\t' || c = '\n' || c = Char.ofNat 11 || c = Char.ofNat 12 || c = '\r' ||
    c = ' ' || c = Char.ofNat 133 || c = Char.ofNat 160

/-- Worker for `replaceAllRuns`: the flag records whether the previous
character belonged to a run already replaced. -/
def collapseGo (p : Char → Bool) (r : Char) : Bool → List Char → List Char
  | _, [] => []
  | inRun, c :: cs =>
    if p c then
      if inRun then collapseGo p r true cs
      else r :: collapseGo p r true cs
    else c :: collapseGo p r false cs

/-- Model of `regexp.MustCompile("X+").ReplaceAll(text, r)`: every maximal
run of characters of class `p` is replaced by the single character `r`. -/
def replaceAllRuns (p : Char → Bool) (r : Char) (l : List Char) : List Char :=
  collapseGo p r false l

/-- Model of Go `strings.TrimSpace`: drop leading and trailing whitespace. -/
def trimSpace (l : List Char) : List Char :=
  List.rdropWhile isGoSpace (l.dropWhile isGoSpace)

/-- The end-of-stream text normalization of `PageReader.Done`: collapse
line-feed/carriage-return runs to a single newline, collapse whitespace runs
to a single space, then trim. -/
def normalizeText (l : List Char) : List Char :=
  trimSpace (replaceAllRuns isRESpace ' ' (replaceAllRuns isLFCR '\n' l))

/-- PageReader state (`page.go`): the three region flags and the body-text
accumulator. -/
structure PageReader where
  inTitle : Bool
  inBody : Bool
  inScript : Bool
  text : List Char

/-- Go `PageReader.HandleStart` (the attributes and tokenizer arguments are
unused by the source). -/
def PageReader.HandleStart (r : PageReader) (tn : String) : PageReader :=
  if tn = "title" then { r with inTitle := true }
  else if tn = "body" then { r with inBody := true }
  else if tn = "script" then { r with inScript := true }
  else r

/-- Go `PageReader.HandleEnd`. -/
def PageReader.HandleEnd (r : PageReader) (tn : String) : PageReader :=
  if tn = "title" then { r with inTitle := false }
  else if tn = "body" then { r with inBody := false }
  else if tn = "script" then { r with inScript := false }
  else r

/-- Page represents an HTML document with metadata; only the fields the
interpretation core writes are modelled (`URL` and `HTML` are set by the
caller and never touched by `Read`). -/
structure Page where
  Title : String
  Text : List Char
  pageR : PageReader
  metaR : MetaReader
  schemaR : SchemaReader

/-- The page a fresh run starts from, as assembled by `Scrape` or the test:
zero-valued readers, empty title and text. -/
def Page.start : Page :=
  ⟨"", [], ⟨false, false, false, []⟩, MetaReader.init, SchemaReader.init⟩

/-- Go `PageReader.HandleText`, acting on the whole page because the source
writes `p.Title` through its parent pointer: title text overwrites the
title; body text outside scripts is appended to the accumulator. -/
def Page.handleText (p : Page) (s : String) : Page :=
  if p.pageR.inTitle then { p with Title := s }
  else if p.pageR.inBody && !p.pageR.inScript then
    { p with pageR := { p.pageR with text := p.pageR.text ++ s.data } }
  else p

/-- Go `ReaderList.Done` over `Page.Readers()`: `PageReader.Done` collapses
and trims the accumulated text into `p.Text` (writing the collapsed-but-
untrimmed bytes back into the accumulator first, as the source does), and
the other two readers' `Done` are no-ops. -/
def Page.done (p : Page) : Page :=
  let t := replaceAllRuns isRESpace ' ' (replaceAllRuns isLFCR '\n' p.pageR.text)
  { p with
    pageR := { p.pageR with text := t },
    Text := trimSpace t,
    metaR := p.metaR.Done,
    schemaR := p.schemaR.Done }

/-- Dispatch a start tag to all three readers in `Readers()` order. -/
def Page.handleStart (p : Page) (tn : String) (attrs : Attrs) : Option Page :=
  (p.metaR.HandleStart tn attrs).map fun mr =>
    { p with
      pageR := p.pageR.HandleStart tn,
      metaR := mr,
      schemaR := p.schemaR.HandleStart tn attrs }

/-- Dispatch an end tag to all three readers in `Readers()` order. -/
def Page.handleEnd (p : Page) (tn : String) : Option Page :=
  (p.schemaR.HandleEnd tn).map fun sr =>
    { p with
      pageR := p.pageR.HandleEnd tn,
      metaR := p.metaR.HandleEnd tn,
      schemaR := sr }

/-- Dispatch a text node to all three readers in `Readers()` order. -/
def Page.handleTextAll (p : Page) (s : String) : Option Page :=
  (p.schemaR.HandleText s).map fun sr =>
    { p.handleText s with
      metaR := p.metaR.HandleText s,
      schemaR := sr }

/-- One iteration of the `Page.Read` tokenizer loop: a self-closing tag is
dispatched as `HandleStart` immediately followed by `HandleEnd`. -/
def pageStep (p : Page) : Tok → Option Page
  | .start tn attrs => p.handleStart tn attrs
  | .endTag tn => p.handleEnd tn
  | .text s => p.handleTextAll s
  | .selfClosing tn attrs => (p.handleStart tn attrs).bind (fun p1 => p1.handleEnd tn)

/-- Go errors at this boundary: the designated end-of-stream condition
`io.EOF`, or any other tokenizer error. -/
inductive GoErr where
  | eof
  | other (msg : String)
deriving DecidableEq

/-- Go `Page.Read`: drive the tokenizer loop; on the `ErrorToken` call
`Done` on every reader and return `z.Err()` (never the nil error, modelled
as `none`).  The input is the token list the tokenizer yields before its
`ErrorToken`, plus the error that terminates the stream; the outer `Option`
is `none` when a `log.Fatalln` abort killed the process. -/
def Page.Read (p : Page) : List Tok → GoErr → Option (Page × Option GoErr)
  | [], e => some (p.done, some e)
  | t :: ts, e => (pageStep p t).bind (fun p1 => p1.Read ts e)

/-- Go `Scrape` after a successful fetch: run `Read` and translate the
designated end-of-stream error into a nil error
(`if err = p.Read(htmlBytes); err != io.EOF { return p, err }; return p, nil`). -/
def Scrape (toks : List Tok) (e : GoErr) : Option (Page × Option GoErr) :=
  (Page.start.Read toks e).map fun r =>
    if r.2 = some GoErr.eof then (r.1, none) else r

/-! ### The one-level fold invariant of `MetaReader` (claim C1) -/

/-- Nesting is at most one level deep: every `Extra` entry of every item has
an empty `Extra` of its own. -/
def DepthOne (l : List Meta) : Prop :=
  ∀ m ∈ l, ∀ e ∈ m.Extra, e.Extra = []

lemma mem_of_mem_dropLast {α : Type} {l : List α} {x : α}
    (h : x ∈ l.dropLast) : x ∈ l :=
  (List.dropLast_sublist l).mem h

lemma mem_of_getLast? {α : Type} {l : List α} {x : α}
    (h : l.getLast? = some x) : x ∈ l := by
  have := List.dropLast_append_getLast? x h
  rw [← this]
  exact List.mem_append_right _ (List.mem_singleton.mpr rfl)

lemma depthOne_append_singleton {l : List Meta} {m : Meta}
    (h : DepthOne l) (hm : ∀ e ∈ m.Extra, e.Extra = []) :
    DepthOne (l ++ [m]) := by
  intro x hx
  rcases List.mem_append.mp hx with hx | hx
  · exact h x hx
  · rw [List.mem_singleton.mp hx]; exact hm

/-- The handler `MetaReader.HandleStart` never aborts and preserves the one-level
invariant: the fold always moves the freshly created (hence `Extra`-empty)
item into the `Extra` of the last top-level item. -/
lemma handleStart_depthOne (r : MetaReader) (tn : String) (attrs : Attrs)
    (h : DepthOne r.items) :
    ∃ r', r.HandleStart tn attrs = some r' ∧ DepthOne r'.items := by
  unfold MetaReader.HandleStart
  split
  · exact ⟨_, rfl, h⟩
  split
  · split
    · exact ⟨_, rfl, h⟩
    · dsimp only [MetaReader.current]
      split
      case _ cur heq =>
        split
        · unfold MetaReader.makeCurrentExtra
          simp only [List.getLast?_concat, List.dropLast_concat, heq]
          refine ⟨_, rfl, ?_⟩
          refine depthOne_append_singleton (fun x hx => h x (mem_of_mem_dropLast hx)) ?_
          intro e he
          simp only [Meta.Extra] at he
          rcases List.mem_append.mp he with he | he
          · exact h cur (mem_of_getLast? heq) e he
          · rw [List.mem_singleton.mp he]; rfl
        · exact ⟨_, rfl, depthOne_append_singleton h (by intro e he; cases he)⟩
      case _ heq =>
        exact ⟨_, rfl, depthOne_append_singleton h (by intro e he; cases he)⟩
  · exact ⟨_, rfl, h⟩

lemma handleEnd_items (r : MetaReader) (tn : String) :
    (r.HandleEnd tn).items = r.items := by
  unfold MetaReader.HandleEnd
  split <;> try rfl
  split <;> rfl

/-- The handler `MetaReader.HandleText` preserves the one-level invariant: it only ever
rewrites the content of the last top-level item. -/
lemma handleText_depthOne (r : MetaReader) (s : String)
    (h : DepthOne r.items) : DepthOne (r.HandleText s).items := by
  unfold MetaReader.HandleText
  split
  · split
    case _ cur heq =>
      split
      · refine depthOne_append_singleton (fun x hx => h x (mem_of_mem_dropLast hx)) ?_
        intro e he
        simp only [Meta.Extra] at he
        exact h cur (mem_of_getLast? heq) e he
      · exact h
    case _ => exact h
  · exact h

/-- One `metaStep` never aborts and preserves the one-level invariant. -/
lemma metaStep_depthOne (r : MetaReader) (t : Tok) (h : DepthOne r.items) :
    ∃ r', metaStep r t = some r' ∧ DepthOne r'.items := by
  cases t with
  | start tn attrs => exact handleStart_depthOne r tn attrs h
  | endTag tn =>
    exact ⟨_, rfl, by rw [handleEnd_items]; exact h⟩
  | text s => exact ⟨_, rfl, handleText_depthOne r s h⟩
  | selfClosing tn attrs =>
    obtain ⟨r1, h1, hd1⟩ := handleStart_depthOne r tn attrs h
    refine ⟨r1.HandleEnd tn, ?_, by rw [handleEnd_items]; exact hd1⟩
    simp only [metaStep, h1, Option.map_some']

lemma runMeta_aux (toks : List Tok) :
    ∀ r : MetaReader, DepthOne r.items →
      ∃ r', List.foldlM metaStep r toks = some r' ∧ DepthOne r'.items := by
  induction toks with
  | nil => exact fun r h => ⟨r, rfl, h⟩
  | cons t ts ih =>
    intro r h
    obtain ⟨r1, hstep, h1⟩ := metaStep_depthOne r t h
    obtain ⟨r2, hrun, h2⟩ := ih r1 h1
    refine ⟨r2, ?_, h2⟩
    rw [List.foldlM_cons, hstep]
    exact hrun

/-- C1: for every input token stream the `MetaReader` run completes without
its internal abort, and every `Meta` in the top-level result sequence has an
`Extra` list containing only `Meta` values whose own `Extra` is empty — the
prefix fold nests exactly one level deep, never two. -/
theorem metaReader_fold_depth_one (toks : List Tok) :
    ∃ r, runMeta toks = some r ∧ ∀ m ∈ r.items, ∀ e ∈ m.Extra, e.Extra = [] := by
  have h := runMeta_aux toks MetaReader.init (by intro m hm; cases hm)
  exact h

/-! ### Attribute precedence (claims C4, C5) and the text fallback (C6) -/

lemma string_empty_append (t : String) : "" ++ t = t := by cases t; rfl

/-- The last-appended prop of `setLastPropContent` carries the new text. -/
lemma setLastPropContent_last (sc : ItemScope) (t : String) (h : sc.Props ≠ []) :
    ((sc.setLastPropContent t).Props.getLast?).map ItemProp.Content = some t := by
  obtain ⟨tn, it, ip, ps, ch⟩ := sc
  unfold ItemScope.setLastPropContent
  simp only [ItemScope.Props] at h ⊢
  match hps : ps.getLast? with
  | none => exact absurd (List.getLast?_eq_none_iff.mp hps) h
  | some p => simp only [ItemScope.Props, List.getLast?_concat, Option.map_some']

/-- A `SchemaReader` text event while inside a property, with a current
scope that has at least one prop, overwrites the last prop's content
unconditionally. -/
lemma schemaText_overwrites (s : SchemaReader) (t : String) (sc : ItemScope)
    (hip : s.insideProp = true) (hsc : s.stack.getLast? = some sc)
    (hps : sc.Props ≠ []) :
    ∃ s', s.HandleText t = some s'
      ∧ s'.stack.getLast? = some (sc.setLastPropContent t)
      ∧ ((sc.setLastPropContent t).Props.getLast?).map ItemProp.Content = some t := by
  unfold SchemaReader.HandleText
  rw [hip]
  simp only [if_true, hsc]
  match hp : sc.Props with
  | [] => exact absurd hp hps
  | p :: ps =>
    exact ⟨_, rfl, List.getLast?_concat _, setLastPropContent_last sc t hps⟩

/-- A `MetaReader` text event is a no-op whenever the current (last
top-level) item already has non-empty content. -/
lemma metaText_noop (r : MetaReader) (t : String) (cur : Meta)
    (hc : r.items.getLast? = some cur) (hne : cur.Content ≠ "") :
    r.HandleText t = r := by
  unfold MetaReader.HandleText
  split
  · rw [hc]
    simp only [if_neg hne]
  · rfl

/-- A `Meta` value with non-empty content survives any text event. -/
lemma metaText_preserves (r : MetaReader) (t : String) (m : Meta)
    (hm : m ∈ r.items) (hne : m.Content ≠ "") :
    m ∈ (r.HandleText t).items := by
  unfold MetaReader.HandleText
  split
  · split
    case _ cur heq =>
      split
      case _ hce =>
        have hsplit : r.items = r.items.dropLast ++ [cur] :=
          (List.dropLast_append_getLast? cur heq).symm
        rw [hsplit] at hm
        rcases List.mem_append.mp hm with hm | hm
        · exact List.mem_append_left _ hm
        · exact absurd (List.mem_singleton.mp hm ▸ hce) hne
      case _ => exact hm
    case _ => exact hm
  · exact hm

/-- C4: for Meta, content set from a non-empty `content` attribute is never
overwritten by a later text event (the fallback fires only when the current
item's content is empty and only touches that item); for ItemProp, a text
event received while inside a property always overwrites the last prop's
content, even when attribute-sourced content/href/datetime is present. -/
theorem attribute_precedence :
    (∀ (r : MetaReader) (t : String) (m : Meta),
        m ∈ r.items → m.Content ≠ "" → m ∈ (r.HandleText t).items)
    ∧ (∀ (r : MetaReader) (t : String) (cur : Meta),
        r.items.getLast? = some cur → cur.Content ≠ "" → r.HandleText t = r)
    ∧ (∀ (s : SchemaReader) (t : String) (sc : ItemScope),
        s.insideProp = true → s.stack.getLast? = some sc → sc.Props ≠ [] →
        ∃ s', s.HandleText t = some s'
          ∧ s'.stack.getLast? = some (sc.setLastPropContent t)
          ∧ ((sc.setLastPropContent t).Props.getLast?).map ItemProp.Content = some t) :=
  ⟨metaText_preserves, metaText_noop, schemaText_overwrites⟩

/-- Witness for C4 at concrete inputs: a Meta with content "X" is untouched
by a text event, and an ItemProp with attribute-sourced content "A", href
and datetime is overwritten to "B". -/
theorem attribute_precedence_witness :
    ((⟨"p", "X", "", []⟩ : Meta) ∈
        (MetaReader.HandleText ⟨[⟨"p", "X", "", []⟩], true, true⟩ "T").items)
    ∧ (MetaReader.HandleText ⟨[⟨"p", "X", "", []⟩], true, true⟩ "T"
        = ⟨[⟨"p", "X", "", []⟩], true, true⟩)
    ∧ (∃ s', SchemaReader.HandleText
          ⟨[], [⟨"div", "", "", [⟨"a", "p", "A", "u", "d"⟩], []⟩], [true, false], true, false⟩ "B"
          = some s'
        ∧ s'.stack.getLast?
          = some (ItemScope.setLastPropContent ⟨"div", "", "", [⟨"a", "p", "A", "u", "d"⟩], []⟩ "B")
        ∧ ((ItemScope.setLastPropContent
              ⟨"div", "", "", [⟨"a", "p", "A", "u", "d"⟩], []⟩ "B").Props.getLast?).map
            ItemProp.Content = some "B") :=
  ⟨attribute_precedence.1 _ "T" _ (List.mem_singleton.mpr rfl) (by decide),
   attribute_precedence.2.1 _ "T" _ rfl (by decide),
   attribute_precedence.2.2 _ "B" _ rfl rfl (List.cons_ne_nil _ _)⟩

/-- C5 counterexample: the claim says an ItemProp's content is overwritten
by a following text event **only if** no attribute-sourced content was
present; here the span carries `content="A"` and the text event still
overwrites the prop's content to "B", so the final result does not retain
"A". -/
theorem itemProp_text_overwrite_cex :
    runSchema [Tok.start "div" [("itemscope", "")],
        Tok.start "span" [("itemprop", "p"), ("content", "A")], Tok.text "B",
        Tok.endTag "span", Tok.endTag "div"]
      = some ⟨[⟨"div", "", "", [⟨"span", "p", "B", "", ""⟩], []⟩], [], [], false, false⟩
    ∧ ("B" : String) ≠ "A" :=
  ⟨rfl, by decide⟩

/-- C5 (amended): an ItemProp's content is overwritten by a following text
event unconditionally — also when an attribute-sourced content, href or
datetime value is already present on the prop. -/
theorem itemProp_text_always_overwrites (s : SchemaReader) (t : String) (sc : ItemScope)
    (hip : s.insideProp = true) (hsc : s.stack.getLast? = some sc)
    (hps : sc.Props ≠ []) :
    ∃ s', s.HandleText t = some s'
      ∧ s'.stack.getLast? = some (sc.setLastPropContent t)
      ∧ ((sc.setLastPropContent t).Props.getLast?).map ItemProp.Content = some t :=
  schemaText_overwrites s t sc hip hsc hps

/-- Witness for the amended C5 at a concrete input with all three
attribute-sourced values present. -/
theorem itemProp_text_always_overwrites_witness :
    ∃ s', SchemaReader.HandleText
        ⟨[], [⟨"div", "", "", [⟨"time", "startDate", "C", "u", "2011-05-08"⟩], []⟩],
          [true, false], true, false⟩ "May 8"
        = some s'
      ∧ s'.stack.getLast?
        = some (ItemScope.setLastPropContent
            ⟨"div", "", "", [⟨"time", "startDate", "C", "u", "2011-05-08"⟩], []⟩ "May 8")
      ∧ ((ItemScope.setLastPropContent
            ⟨"div", "", "", [⟨"time", "startDate", "C", "u", "2011-05-08"⟩], []⟩
            "May 8").Props.getLast?).map ItemProp.Content = some "May 8" :=
  itemProp_text_always_overwrites _ "May 8" _ rfl rfl (List.cons_ne_nil _ _)

/-- C6 counterexample: the second meta tag triggers a prefix fold, so the
just-folded Meta (property "a:b") has empty content when the text event "T"
arrives — yet its content is not set from the text: the interpreter
consults the last **top-level** Meta (the fold parent, content "X"), so the
folded Meta's content stays empty. -/
theorem metaText_after_fold_cex :
    (runMeta [Tok.start "head" [], Tok.start "meta" [("property", "a"), ("content", "X")],
        Tok.endTag "meta", Tok.start "meta" [("property", "a:b")], Tok.text "T"]).map
      (fun r => r.items.map fun m => m.Extra.map Meta.Content) = some [[""]]
    ∧ ¬ ((runMeta [Tok.start "head" [], Tok.start "meta" [("property", "a"), ("content", "X")],
        Tok.endTag "meta", Tok.start "meta" [("property", "a:b")], Tok.text "T"]).map
      (fun r => r.items.map fun m => m.Extra.map Meta.Content) = some [["T"]]) :=
  ⟨rfl, by decide⟩

/-- C6 (amended): on a text event while inside an open meta element and
inside the head, the item consulted is the current tail of the **top-level**
sequence — after a fold this is the fold parent, not the just-folded Meta —
and when that item's content is empty it is set from the text. -/
theorem metaText_sets_tail_content (r : MetaReader) (t : String) (cur : Meta)
    (hi : r.inside = true) (hh : r.inHead = true)
    (hc : r.items.getLast? = some cur) (he : cur.Content = "") :
    (r.HandleText t).items
      = r.items.dropLast ++ [⟨cur.Property, t, cur.Name, cur.Extra⟩] := by
  unfold MetaReader.HandleText
  rw [hi, hh]
  simp only [Bool.and_self, if_true, hc, if_pos he, he, string_empty_append]

/-- Witness for the amended C6 at a concrete input. -/
theorem metaText_sets_tail_content_witness :
    (MetaReader.HandleText ⟨[⟨"p", "", "n", []⟩], true, true⟩ "T").items
      = [(⟨"p", "", "n", []⟩ : Meta)].dropLast ++ [⟨"p", "T", "n", []⟩] :=
  metaText_sets_tail_content ⟨[⟨"p", "", "n", []⟩], true, true⟩ "T" ⟨"p", "", "n", []⟩
    rfl rfl rfl rfl

/-! ### The marker stack bug (claim C2) and the reachable abort (claim C9) -/

/-- C2 evaluation at the failing input: a start tag with no attributes
outside the head pushes nothing at all — the whole state is unchanged, the
marker stack is not extended — so the matching end tag pops a marker
belonging to an enclosing scope.  Consequence on a full stream: the
attribute-less `span` inside the `div` itemscope leaves no marker, so
`</span>` pops the scope's `true` marker and closes the scope early, and
the later `itemprop` element `b` is dropped instead of becoming a prop of
the scope. -/
theorem schema_noattr_start_no_marker :
    (SchemaReader.HandleStart ⟨[], [⟨"div", "T", "", [], []⟩], [true], false, false⟩ "span" []
      = ⟨[], [⟨"div", "T", "", [], []⟩], [true], false, false⟩)
    ∧ runSchema [Tok.start "div" [("itemscope", ""), ("itemtype", "T")],
        Tok.start "span" [], Tok.endTag "span",
        Tok.start "b" [("itemprop", "p"), ("content", "c")], Tok.endTag "b", Tok.endTag "div"]
      = some ⟨[⟨"div", "T", "", [], []⟩], [], [], false, false⟩ :=
  ⟨rfl, rfl⟩

/-- C9: the `MetaReader` fold abort is indeed unreachable (every run
completes), but the `SchemaReader.HandleText` abort branch is reachable: an
`itemscope` opened inside a still-open `itemprop` element leaves
`insideProp` set while the new current scope has no props, so the next text
event executes the `log.Fatalln` (the run returns `none`). -/
theorem schemaText_abort_reachable :
    (∀ toks : List Tok, ∃ r, runMeta toks = some r)
    ∧ runSchema [Tok.start "div" [("itemscope", "")], Tok.start "a" [("itemprop", "p")],
        Tok.start "div" [("itemscope", "")], Tok.text "x"] = none :=
  ⟨fun toks =>
    (runMeta_aux toks MetaReader.init (by intro m hm; cases hm)).imp fun _ h => h.1,
   rfl⟩

/-! ### Scope/marker balance on well-nested streams (claim C3) -/

/-- Well-nested token streams: every start tag is matched by an end tag of
the same name, properly nested; text and self-closing tags are atoms. -/
inductive Balanced : List Tok → Prop where
  | nil : Balanced []
  | text (s : String) {rest : List Tok} :
      Balanced rest → Balanced (Tok.text s :: rest)
  | selfc (tn : String) (attrs : Attrs) {rest : List Tok} :
      Balanced rest → Balanced (Tok.selfClosing tn attrs :: rest)
  | node (tn : String) (attrs : Attrs) {inner rest : List Tok} :
      Balanced inner → Balanced rest →
      Balanced (Tok.start tn attrs :: (inner ++ Tok.endTag tn :: rest))

/-- The `SchemaReader` stack/marker correlation: the scope stack holds one
scope per `true` marker. -/
def Inv (r : SchemaReader) : Prop :=
  r.stack.length = r.breadcrumbs.count true

lemma dropLast_prefix_self {α : Type} (l : List α) : l.dropLast <+: l := by
  cases hl : l.getLast? with
  | none => rw [List.getLast?_eq_none_iff.mp hl]; exact List.prefix_refl _
  | some x => exact ⟨[x], List.dropLast_append_getLast? x hl⟩

lemma prefix_concat_dropLast {α : Type} {l L : List α} {x : α}
    (h : l <+: L ++ [x]) : l.dropLast <+: L := by
  obtain ⟨t, ht⟩ := h
  cases hte : t with
  | nil =>
    rw [hte, List.append_nil] at ht
    rw [ht, List.dropLast_concat]
  | cons a as =>
    have htne : t ≠ [] := by rw [hte]; exact List.cons_ne_nil _ _
    have ht2 : (l ++ t.dropLast) ++ [t.getLast htne] = L ++ [x] := by
      rw [List.append_assoc, List.dropLast_append_getLast htne, ht]
    have := List.append_inj' ht2 rfl
    refine List.IsPrefix.trans (dropLast_prefix_self l) ⟨t.dropLast, this.1⟩

lemma handleStart_head (r : SchemaReader) (attrs : Attrs) :
    r.HandleStart "head" attrs = { r with inHead := true } := rfl

lemma handleStart_inHead (r : SchemaReader) (tn : String) (attrs : Attrs)
    (h : r.inHead = true) (htn : tn ≠ "head") : r.HandleStart tn attrs = r := by
  unfold SchemaReader.HandleStart
  rw [if_neg htn]
  dsimp only
  rw [h]
  simp

lemma handleStart_noattrs (r : SchemaReader) (tn : String) (htn : tn ≠ "head") :
    r.HandleStart tn [] = r := by
  unfold SchemaReader.HandleStart
  rw [if_neg htn]
  dsimp only
  simp [attrsEmpty]

/-- Outside the head, a start tag with attributes pushes exactly one marker
`m`, pushes a scope exactly when `m = true`, and leaves `inHead` false. -/
lemma handleStart_push (r : SchemaReader) (tn : String) (attrs : Attrs)
    (hh : r.inHead = false) (htn : tn ≠ "head") (ha : attrs ≠ []) :
    ∃ m : Bool, (r.HandleStart tn attrs).breadcrumbs = r.breadcrumbs ++ [m]
      ∧ (r.HandleStart tn attrs).stack.length = r.stack.length + (cond m 1 0)
      ∧ (r.HandleStart tn attrs).inHead = false := by
  unfold SchemaReader.HandleStart
  rw [if_neg htn]
  dsimp only
  have hae : attrsEmpty attrs = false := by
    cases attrs with
    | nil => exact absurd rfl ha
    | cons a as => rfl
  rw [hh, hae]
  simp only [Bool.or_self, Bool.false_eq_true, if_false]
  split
  · refine ⟨true, rfl, ?_, hh⟩
    simp [SchemaReader.next, List.dropLast_concat]
  · split
    case _ sc hsc =>
      have hne : r.stack ≠ [] := by
        intro hnil
        rw [SchemaReader.current, hnil] at hsc
        cases hsc
      have hlen : 0 < r.stack.length := List.length_pos.mpr hne
      split
      · refine ⟨false, rfl, ?_, rfl⟩
        simp only [List.length_append, List.length_dropLast, List.length_singleton,
          Bool.cond_false]
        omega
      · exact ⟨false, rfl, rfl, rfl⟩
    case _ => exact ⟨false, rfl, rfl, rfl⟩

/-- The handler `HandleStart` preserves the stack/marker correlation. -/
lemma handleStart_inv (r : SchemaReader) (tn : String) (attrs : Attrs)
    (hinv : Inv r) : Inv (r.HandleStart tn attrs) := by
  by_cases htn : tn = "head"
  · rw [htn, handleStart_head]; exact hinv
  by_cases hh : r.inHead
  · rw [handleStart_inHead r tn attrs hh htn]; exact hinv
  by_cases ha : attrs = ([] : Attrs)
  · rw [ha, handleStart_noattrs r tn htn]; exact hinv
  · obtain ⟨m, hbc, hlen, _⟩ :=
      handleStart_push r tn attrs (Bool.eq_false_iff.mpr hh) htn ha
    unfold Inv
    rw [hbc, hlen, List.count_append, hinv]
    cases m <;> simp

lemma handleEnd_head_inHead (r : SchemaReader) (h : r.inHead = true) :
    r.HandleEnd "head" = some { r with inHead := false } := by
  unfold SchemaReader.HandleEnd
  rw [h]
  simp

lemma handleEnd_other_inHead (r : SchemaReader) (tn : String)
    (h : r.inHead = true) (htn : tn ≠ "head") : r.HandleEnd tn = some r := by
  unfold SchemaReader.HandleEnd
  rw [h]
  simp [htn]

/-- Outside the head, an end tag pops exactly the last marker (when one
exists), pops a scope exactly when that marker is `true` (safe thanks to
the correlation invariant), and preserves the invariant. -/
lemma handleEnd_pop (r : SchemaReader) (tn : String)
    (hh : r.inHead = false) (hinv : Inv r) :
    ∃ r3, r.HandleEnd tn = some r3
      ∧ r3.breadcrumbs = r.breadcrumbs.dropLast
      ∧ Inv r3
      ∧ r3.inHead = false := by
  unfold SchemaReader.HandleEnd
  rw [hh]
  simp only [Bool.false_eq_true, if_false]
  cases hbc : r.breadcrumbs.getLast? with
  | none =>
    have hbnil : r.breadcrumbs = [] := List.getLast?_eq_none_iff.mp hbc
    refine ⟨_, rfl, ?_, ?_, rfl⟩
    · simp [hbnil]
    · unfold Inv at hinv ⊢
      exact hinv
  | some m =>
    have hsplitbc : r.breadcrumbs.dropLast ++ [m] = r.breadcrumbs :=
      List.dropLast_append_getLast? m hbc
    have hcount : r.breadcrumbs.count true
        = r.breadcrumbs.dropLast.count true + (cond m 1 0) := by
      rw [← hsplitbc, List.count_append]
      cases m <;> simp
    cases m with
    | false =>
      refine ⟨_, rfl, rfl, ?_, rfl⟩
      unfold Inv at hinv ⊢
      simp only at hinv ⊢
      rw [hinv, hcount]
      simp
    | true =>
      have hslen : r.stack.length = r.breadcrumbs.dropLast.count true + 1 := by
        rw [hinv, hcount]
        simp
      have hsne : r.stack ≠ [] := by
        intro hnil
        rw [hnil] at hslen
        simp at hslen
      cases hsl : r.stack.getLast? with
      | none => exact absurd (List.getLast?_eq_none_iff.mp hsl) hsne
      | some s =>
        unfold SchemaReader.pop
        simp only [hsl]
        have hlen0 : 0 < r.stack.length := List.length_pos.mpr hsne
        have hldrop : r.stack.dropLast.length = r.stack.length - 1 :=
          List.length_dropLast _
        cases hrest : r.stack.dropLast.getLast? with
        | none =>
          have hrnil : r.stack.dropLast = [] := List.getLast?_eq_none_iff.mp hrest
          have hlen1 : r.stack.length - 1 = 0 := by
            rw [← hldrop, hrnil]
            rfl
          refine ⟨_, rfl, rfl, ?_, rfl⟩
          unfold Inv
          simp only [hrnil, List.length_nil]
          omega
        | some parent =>
          have hrne : r.stack.dropLast ≠ [] := by
            intro hnil
            rw [hnil] at hrest
            cases hrest
          have hrlen : 0 < r.stack.dropLast.length := List.length_pos.mpr hrne
          refine ⟨_, rfl, rfl, ?_, rfl⟩
          unfold Inv
          simp only [List.length_append, List.length_dropLast, List.length_singleton]
          omega

/-- Closing bracket of a well-nested pair: if the start tag took `r` to
`r1`, the (well-nested) inner stream took `r1` to `r2` shrinking the marker
stack only, then the matching end tag takes `r2` to a state whose marker
stack is a prefix of the original one, with the correlation invariant
intact and the head flag still clear when it started clear. -/
lemma bracket_end (r r1 r2 r3 : SchemaReader) (tn : String) (attrs : Attrs)
    (hinv : Inv r)
    (hstart : r.HandleStart tn attrs = r1)
    (hpre : r2.breadcrumbs <+: r1.breadcrumbs)
    (hinv2 : Inv r2)
    (hmono : r1.inHead = false → r2.inHead = false)
    (hend : r2.HandleEnd tn = some r3) :
    r3.breadcrumbs <+: r.breadcrumbs ∧ Inv r3
      ∧ (r.inHead = false → r3.inHead = false) := by
  by_cases htn : tn = "head"
  · subst htn
    rw [handleStart_head] at hstart
    have hbc1 : r1.breadcrumbs = r.breadcrumbs := by rw [← hstart]
    cases hr2h : r2.inHead with
    | true =>
      rw [handleEnd_head_inHead r2 hr2h] at hend
      cases hend
      exact ⟨hbc1 ▸ hpre, hinv2, fun _ => rfl⟩
    | false =>
      obtain ⟨r3', hend', hbc3, hinv3, hh3⟩ := handleEnd_pop r2 "head" hr2h hinv2
      rw [hend'] at hend
      cases hend
      refine ⟨?_, hinv3, fun _ => hh3⟩
      rw [hbc3]
      exact List.IsPrefix.trans (dropLast_prefix_self _) (hbc1 ▸ hpre)
  by_cases hh : r.inHead
  · rw [handleStart_inHead r tn attrs hh htn] at hstart
    have hbc1 : r1.breadcrumbs = r.breadcrumbs := by rw [← hstart]
    have hfin : r3.breadcrumbs <+: r.breadcrumbs ∧ Inv r3 := by
      cases hr2h : r2.inHead with
      | true =>
        rw [handleEnd_other_inHead r2 tn hr2h htn] at hend
        cases hend
        exact ⟨hbc1 ▸ hpre, hinv2⟩
      | false =>
        obtain ⟨r3', hend', hbc3, hinv3, _⟩ := handleEnd_pop r2 tn hr2h hinv2
        rw [hend'] at hend
        cases hend
        exact ⟨hbc3 ▸ List.IsPrefix.trans (dropLast_prefix_self _) (hbc1 ▸ hpre), hinv3⟩
    exact ⟨hfin.1, hfin.2, fun hc => absurd hc (by rw [hh]; exact fun h => by cases h)⟩
  · have hh' : r.inHead = false := Bool.eq_false_iff.mpr hh
    by_cases ha : attrs = ([] : Attrs)
    · subst ha
      rw [handleStart_noattrs r tn htn] at hstart
      have hbc1 : r1.breadcrumbs = r.breadcrumbs := by rw [← hstart]
      have hh1 : r1.inHead = false := by rw [← hstart]; exact hh'
      obtain ⟨r3', hend', hbc3, hinv3, hh3⟩ := handleEnd_pop r2 tn (hmono hh1) hinv2
      rw [hend'] at hend
      cases hend
      exact ⟨hbc3 ▸ List.IsPrefix.trans (dropLast_prefix_self _) (hbc1 ▸ hpre),
        hinv3, fun _ => hh3⟩
    · obtain ⟨m, hbc1, _, hh1⟩ := handleStart_push r tn attrs hh' htn ha
      rw [hstart] at hbc1 hh1
      obtain ⟨r3', hend', hbc3, hinv3, hh3⟩ := handleEnd_pop r2 tn (hmono hh1) hinv2
      rw [hend'] at hend
      cases hend
      refine ⟨?_, hinv3, fun _ => hh3⟩
      rw [hbc3]
      exact prefix_concat_dropLast (hbc1 ▸ hpre)

/-- A `SchemaReader` text event that does not abort changes neither stack
lengths nor the head flag. -/
lemma handleText_shape (r r' : SchemaReader) (s : String)
    (h : r.HandleText s = some r') :
    r'.breadcrumbs = r.breadcrumbs ∧ r'.stack.length = r.stack.length
      ∧ r'.inHead = r.inHead := by
  unfold SchemaReader.HandleText at h
  split at h
  · split at h
    case _ => cases h
    case _ sc hsc =>
      split at h
      case _ => cases h
      case _ =>
        cases h
        have hne : r.stack ≠ [] := by
          intro hnil
          rw [hnil] at hsc
          cases hsc
        have hlen : 0 < r.stack.length := List.length_pos.mpr hne
        refine ⟨rfl, ?_, rfl⟩
        simp only [List.length_append, List.length_dropLast, List.length_singleton]
        omega
  · cases h
    exact ⟨rfl, rfl, rfl⟩

lemma foldlM_append_opt {σ α : Type} (f : σ → α → Option σ) (l1 l2 : List α) :
    ∀ s : σ, List.foldlM f s (l1 ++ l2)
      = (List.foldlM f s l1).bind fun s1 => List.foldlM f s1 l2 := by
  induction l1 with
  | nil => intro s; rfl
  | cons a l ih =>
    intro s
    rw [List.cons_append, List.foldlM_cons, List.foldlM_cons]
    cases hfa : f s a with
    | none => rfl
    | some s1 => exact ih s1

/-- Processing a well-nested stream shrinks the marker stack (the final
marker stack is a prefix of the initial one), keeps the stack/marker
correlation, and keeps the head flag clear when it started clear. -/
lemma balanced_run {toks : List Tok} (hb : Balanced toks) :
    ∀ r r' : SchemaReader, Inv r →
      List.foldlM schemaStep r toks = some r' →
      r'.breadcrumbs <+: r.breadcrumbs ∧ Inv r'
        ∧ (r.inHead = false → r'.inHead = false) := by
  induction hb with
  | nil =>
    intro r r' hinv hrun
    cases hrun
    exact ⟨List.prefix_refl _, hinv, fun h => h⟩
  | text s hrest ih =>
    intro r r' hinv hrun
    rw [List.foldlM_cons] at hrun
    cases hstep : SchemaReader.HandleText r s with
    | none => rw [show schemaStep r (Tok.text s) = none from hstep] at hrun; cases hrun
    | some r1 =>
      rw [show schemaStep r (Tok.text s) = some r1 from hstep] at hrun
      simp only [Option.bind_eq_bind, Option.some_bind] at hrun
      obtain ⟨hbc, hlen, hhd⟩ := handleText_shape r r1 s hstep
      have hinv1 : Inv r1 := by unfold Inv; rw [hbc, hlen]; exact hinv
      obtain ⟨hpre, hinv', hmono⟩ := ih r1 r' hinv1 hrun
      exact ⟨hbc ▸ hpre, hinv', fun h => hmono (by rw [hhd]; exact h)⟩
  | selfc tn attrs hrest ih =>
    intro r r' hinv hrun
    rw [List.foldlM_cons] at hrun
    have hinv1 : Inv (r.HandleStart tn attrs) := handleStart_inv r tn attrs hinv
    cases hend : (r.HandleStart tn attrs).HandleEnd tn with
    | none => rw [show schemaStep r (Tok.selfClosing tn attrs) = none from hend] at hrun; cases hrun
    | some r3 =>
      rw [show schemaStep r (Tok.selfClosing tn attrs) = some r3 from hend] at hrun
      simp only [Option.bind_eq_bind, Option.some_bind] at hrun
      obtain ⟨hpre3, hinv3, hmono3⟩ :=
        bracket_end r (r.HandleStart tn attrs) (r.HandleStart tn attrs) r3 tn attrs
          hinv rfl (List.prefix_refl _) hinv1 (fun h => h) hend
      obtain ⟨hpre, hinv', hmono⟩ := ih r3 r' hinv3 hrun
      exact ⟨List.IsPrefix.trans hpre hpre3, hinv',
        fun h => hmono (hmono3 h)⟩
  | node tn attrs hbi hbr ihi ihr =>
    intro r r' hinv hrun
    rw [List.foldlM_cons] at hrun
    have hstep1 : schemaStep r (Tok.start tn attrs) = some (r.HandleStart tn attrs) := rfl
    rw [hstep1] at hrun
    simp only [Option.bind_eq_bind, Option.some_bind] at hrun
    rw [foldlM_append_opt] at hrun
    cases hmid : List.foldlM schemaStep (r.HandleStart tn attrs) _ with
    | none => rw [hmid] at hrun; cases hrun
    | some r2 =>
      rw [hmid] at hrun
      simp only [Option.bind_eq_bind, Option.some_bind] at hrun
      rw [List.foldlM_cons] at hrun
      cases hend : r2.HandleEnd tn with
      | none => rw [show schemaStep r2 (Tok.endTag tn) = none from hend] at hrun; cases hrun
      | some r3 =>
        rw [show schemaStep r2 (Tok.endTag tn) = some r3 from hend] at hrun
        simp only [Option.bind_eq_bind, Option.some_bind] at hrun
        have hinv1 : Inv (r.HandleStart tn attrs) := handleStart_inv r tn attrs hinv
        obtain ⟨hpre2, hinv2, hmono2⟩ := ihi _ r2 hinv1 hmid
        obtain ⟨hpre3, hinv3, hmono3⟩ :=
          bracket_end r (r.HandleStart tn attrs) r2 r3 tn attrs
            hinv rfl hpre2 hinv2 hmono2 hend
        obtain ⟨hpre, hinv', hmono⟩ := ihr r3 r' hinv3 hrun
        exact ⟨List.IsPrefix.trans hpre hpre3, hinv', fun h => hmono (hmono3 h)⟩

/-- C3 (amended): for every **well-nested** input token stream on which the
run completes, the scope stack and the marker stack are both empty at
end-of-stream.  (The original claim quantified over all inputs; an
unclosed start tag leaves its marker and scope on the stacks, see the
counterexample.) -/
theorem schema_stacks_empty_balanced (toks : List Tok) (hb : Balanced toks)
    (r : SchemaReader) (hrun : runSchema toks = some r) :
    r.stack = [] ∧ r.breadcrumbs = [] := by
  obtain ⟨hpre, hinv, _⟩ := balanced_run hb SchemaReader.init r rfl hrun
  have hbc : r.breadcrumbs = [] := List.prefix_nil.mp hpre
  have hlen : r.stack.length = 0 := by
    unfold Inv at hinv
    rw [hbc] at hinv
    simpa using hinv
  exact ⟨List.length_eq_zero.mp hlen, hbc⟩

/-- Witness for C3 at a concrete well-nested stream. -/
theorem schema_stacks_empty_balanced_witness :
    ∃ r, runSchema [Tok.start "div" [("itemscope", "")], Tok.endTag "div"] = some r
      ∧ r.stack = [] ∧ r.breadcrumbs = [] := by
  have hb : Balanced [Tok.start "div" [("itemscope", "")], Tok.endTag "div"] :=
    Balanced.node "div" [("itemscope", "")] Balanced.nil Balanced.nil
  exact ⟨⟨[⟨"div", "", "", [], []⟩], [], [], false, false⟩, rfl,
    schema_stacks_empty_balanced _ hb _ rfl⟩

/-- C3 counterexample to the unrestricted claim: a single unmatched
`itemscope` start tag reaches end-of-stream with one marker and one open
scope still on the stacks. -/
theorem schema_stacks_unbalanced_cex :
    runSchema [Tok.start "div" [("itemscope", "")]]
      = some ⟨[], [⟨"div", "", "", [], []⟩], [true], false, false⟩
    ∧ ([true] : List Bool) ≠ [] :=
  ⟨rfl, by decide⟩

/-! ### Idempotence of the end-of-stream text normalization (claim C7) -/

/-- Every class-`p` character surviving a collapse is the replacement. -/
def AllR (p : Char → Bool) (r : Char) (x : List Char) : Prop :=
  ∀ c ∈ x, p c = true → c = r

/-- No two adjacent characters of class `p`. -/
def Sep (p : Char → Bool) (x : List Char) : Prop :=
  List.Chain' (fun a c => ¬(p a = true ∧ p c = true)) x

lemma collapseGo_allR (p : Char → Bool) (r : Char) :
    ∀ (x : List Char) (b : Bool), AllR p r (collapseGo p r b x) := by
  intro x
  induction x with
  | nil => intro b c hc; cases hc
  | cons c cs ih =>
    intro b
    unfold collapseGo
    split
    · split
      · exact ih true
      · intro d hd hpd
        rcases List.mem_cons.mp hd with h | h
        · exact h
        · exact ih true d h hpd
    case _ hpc =>
      intro d hd hpd
      rcases List.mem_cons.mp hd with h | h
      · exact absurd (h ▸ hpd) hpc
      · exact ih false d h hpd

lemma collapseGo_head_not (p : Char → Bool) (r : Char) :
    ∀ (x : List Char) (c : Char),
      (collapseGo p r true x).head? = some c → p c = false := by
  intro x
  induction x with
  | nil => intro c hc; cases hc
  | cons d ds ih =>
    intro c
    unfold collapseGo
    split
    · exact ih c
    case _ hpd =>
      intro hc
      cases hc
      exact Bool.eq_false_iff.mpr hpd

lemma collapseGo_sep (p : Char → Bool) (r : Char) :
    ∀ (x : List Char) (b : Bool), Sep p (collapseGo p r b x) := by
  intro x
  induction x with
  | nil => intro b; exact List.chain'_nil
  | cons c cs ih =>
    intro b
    unfold collapseGo
    split
    · split
      · exact ih true
      · refine List.chain'_cons'.mpr ⟨?_, ih true⟩
        intro y hy hpair
        rw [collapseGo_head_not p r cs y hy] at hpair
        exact Bool.false_ne_true hpair.2
    case _ hpc =>
      refine List.chain'_cons'.mpr ⟨?_, ih false⟩
      intro y hy hpair
      exact hpc hpair.1

/-- A list already in collapsed form is a fixed point of the collapse. -/
lemma collapseGo_eq_self (p : Char → Bool) (r : Char) :
    ∀ x : List Char, AllR p r x → Sep p x →
      collapseGo p r false x = x
        ∧ ((∀ c, x.head? = some c → p c = false) → collapseGo p r true x = x) := by
  intro x
  induction x with
  | nil => exact fun _ _ => ⟨rfl, fun _ => rfl⟩
  | cons c cs ih =>
    intro hall hsep
    have hall' : AllR p r cs := fun d hd => hall d (List.mem_cons_of_mem c hd)
    obtain ⟨hhead, htail⟩ := List.chain'_cons'.mp hsep
    obtain ⟨ih1, ih2⟩ := ih hall' htail
    constructor
    · unfold collapseGo
      split
      case _ hpc =>
        have hcr : c = r := hall c (List.mem_cons_self c cs) hpc
        have hcs : collapseGo p r true cs = cs := by
          refine ih2 ?_
          intro d hd
          have := hhead d hd
          cases hpd : p d with
          | false => rfl
          | true => exact absurd ⟨hpc, hpd⟩ this
        rw [hcs, hcr]
        rfl
      case _ hpc => rw [ih1]
    · intro hheadc
      have hpc : p c = false := hheadc c rfl
      unfold collapseGo
      rw [hpc]
      simp only [Bool.false_eq_true, if_false]
      rw [ih1]

/-- A collapse over a list free of class-`p` characters is the identity. -/
lemma collapseGo_no_match (p : Char → Bool) (r : Char) :
    ∀ (x : List Char) (b : Bool), (∀ c ∈ x, p c = false) →
      collapseGo p r b x = x := by
  intro x
  induction x with
  | nil => intro b _; rfl
  | cons c cs ih =>
    intro b h
    unfold collapseGo
    rw [h c (List.mem_cons_self c cs)]
    simp only [Bool.false_eq_true, if_false]
    rw [ih false fun d hd => h d (List.mem_cons_of_mem c hd)]

lemma head?_dropWhile_false (p : Char → Bool) :
    ∀ (y : List Char) (c : Char), (y.dropWhile p).head? = some c → p c = false := by
  intro y
  induction y with
  | nil => intro c hc; cases hc
  | cons d ds ih =>
    intro c
    rw [List.dropWhile_cons]
    split
    · exact ih c
    case _ hpd =>
      intro hc
      cases hc
      exact Bool.eq_false_iff.mpr hpd

/-- Leading whitespace is still absent after the trailing trim, so a second
leading trim is the identity. -/
lemma dropWhile_rdropWhile_dropWhile (p : Char → Bool) (y : List Char) :
    ((y.dropWhile p).rdropWhile p).dropWhile p = (y.dropWhile p).rdropWhile p := by
  cases hu : y.dropWhile p with
  | nil => rw [List.rdropWhile_nil]; rfl
  | cons c u' =>
    have hc : p c = false := head?_dropWhile_false p y c (by rw [hu]; rfl)
    have hpre : (c :: u').rdropWhile p <+: c :: u' := List.rdropWhile_prefix p _
    cases hr : (c :: u').rdropWhile p with
    | nil => rfl
    | cons d t =>
      obtain ⟨t', ht'⟩ := hpre
      rw [hr] at ht'
      have hd : d = c := by
        have := ht'
        rw [List.cons_append] at this
        exact (List.cons.injEq _ _ _ _).mp this |>.1
      rw [List.dropWhile_cons, hd, hc]
      simp

/-- The trim `trimSpace` is idempotent. -/
lemma trimSpace_idem (y : List Char) : trimSpace (trimSpace y) = trimSpace y := by
  unfold trimSpace
  rw [dropWhile_rdropWhile_dropWhile, List.rdropWhile_idempotent]

lemma isLFCR_isRESpace {c : Char} (h : isLFCR c = true) : isRESpace c = true := by
  unfold isLFCR at h
  unfold isRESpace
  rcases Bool.or_eq_true_iff.mp h with h | h <;> simp [h]

lemma mem_collapseGo (p : Char → Bool) (r : Char) :
    ∀ (x : List Char) (b : Bool) (c : Char),
      c ∈ collapseGo p r b x → c ∈ x ∨ c = r := by
  intro x
  induction x with
  | nil => intro b c hc; cases hc
  | cons d ds ih =>
    intro b c
    unfold collapseGo
    split
    · split
      · intro hc
        rcases ih true c hc with h | h
        · exact Or.inl (List.mem_cons_of_mem d h)
        · exact Or.inr h
      · intro hc
        rcases List.mem_cons.mp hc with h | h
        · exact Or.inr h
        · rcases ih true c h with h2 | h2
          · exact Or.inl (List.mem_cons_of_mem d h2)
          · exact Or.inr h2
    · intro hc
      rcases List.mem_cons.mp hc with h | h
      · exact Or.inl (h ▸ List.mem_cons_self d ds)
      · rcases ih false c h with h2 | h2
        · exact Or.inl (List.mem_cons_of_mem d h2)
        · exact Or.inr h2

/-- C7: the end-of-stream text normalization (collapse line-feed runs to a
newline, collapse whitespace runs to a space, trim) is idempotent. -/
theorem normalizeText_idempotent (l : List Char) :
    normalizeText (normalizeText l) = normalizeText l := by
  unfold normalizeText
  set y := replaceAllRuns isRESpace ' ' (replaceAllRuns isLFCR '\n' l) with hy
  set z := trimSpace y with hz
  have hmemzy : ∀ c ∈ z, c ∈ y := by
    intro c hc
    rw [hz] at hc
    unfold trimSpace at hc
    have h1 : c ∈ y.dropWhile isGoSpace :=
      (( List.rdropWhile_prefix isGoSpace _).sublist).mem hc
    exact ((List.dropWhile_suffix isGoSpace).sublist).mem h1
  have hyall : AllR isRESpace ' ' y := by
    rw [hy]
    exact collapseGo_allR isRESpace ' ' _ false
  have hzall : AllR isRESpace ' ' z := fun c hc => hyall c (hmemzy c hc)
  have hzsep : Sep isRESpace z := by
    have hysep : Sep isRESpace y := collapseGo_sep isRESpace ' ' _ false
    rw [hz]
    unfold trimSpace
    exact List.Chain'.prefix
      (List.Chain'.suffix hysep (List.dropWhile_suffix isGoSpace))
      ( List.rdropWhile_prefix isGoSpace _)
  have hznolf : ∀ c ∈ z, isLFCR c = false := by
    intro c hc
    cases hlf : isLFCR c with
    | false => rfl
    | true =>
      have hsp : isRESpace c = true := isLFCR_isRESpace hlf
      have hcr : c = ' ' := hzall c hc hsp
      rw [hcr] at hlf
      cases hlf
  have h1 : replaceAllRuns isLFCR '\n' z = z :=
    collapseGo_no_match isLFCR '\n' z false hznolf
  have h2 : replaceAllRuns isRESpace ' ' z = z :=
    (collapseGo_eq_self isRESpace ' ' z hzall hzsep).1
  rw [h1, h2, hz]
  exact trimSpace_idem y

/-! ### The `Page.Read` loop and its terminating error (claims C8, C10) -/

/-- The tokenizer loop equals the fold of the per-token dispatch followed by
`Done` on all readers, with the terminating tokenizer error returned
unchanged. -/
lemma read_eq_fold (toks : List Tok) (e : GoErr) :
    ∀ p : Page, p.Read toks e
      = (List.foldlM pageStep p toks).map fun s => (s.done, some e) := by
  induction toks with
  | nil => intro p; rfl
  | cons t ts ih =>
    intro p
    have hcons : Page.Read p (t :: ts) e
        = (pageStep p t).bind fun p1 => Page.Read p1 ts e := rfl
    rw [hcons, List.foldlM_cons]
    cases hstep : pageStep p t with
    | none => rfl
    | some p1 =>
      have h1 : (some p1).bind (fun p2 => Page.Read p2 ts e) = Page.Read p1 ts e := rfl
      rw [h1]
      exact ih p1

/-- C8: for every input token stream and terminating tokenizer error, the
`Page.Read` loop finalizes (`Done` on every reader) exactly at end-of-stream
and returns the tokenizer's error unchanged — `io.EOF` on expected
termination, any other error as-is — alongside the state accumulated by
dispatching every earlier token, so partial results are preserved rather
than discarded. -/
theorem pageRead_finalizes_and_propagates (toks : List Tok) (e : GoErr) (p : Page) :
    p.Read toks e = (List.foldlM pageStep p toks).map fun s => (s.done, some e) :=
  read_eq_fold toks e p

/-- C10: `Page.Read` never returns the nil error: whenever the run
completes, the returned error is exactly the tokenizer's terminating error
(`io.EOF` on a fully consumed stream), so `Scrape` correctly tests the
result against `io.EOF` — a nil test would never report success. -/
theorem pageRead_never_nil (toks : List Tok) (e : GoErr) (res : Page × Option GoErr)
    (h : Page.start.Read toks e = some res) :
    res.2 = some e ∧ res.2 ≠ none
      ∧ Scrape toks e = some (res.1, if e = GoErr.eof then none else some e) := by
  rw [read_eq_fold toks e Page.start] at h
  obtain ⟨s, hs, hres⟩ := Option.map_eq_some'.mp h
  have h2 : res.2 = some e := by rw [← hres]
  refine ⟨h2, by rw [h2]; exact Option.some_ne_none e, ?_⟩
  unfold Scrape
  rw [read_eq_fold toks e Page.start, hs]
  simp only [Option.map_some']
  rw [← hres]
  by_cases he : e = GoErr.eof
  · rw [if_pos (by rw [he]), if_pos he]
  · rw [if_neg (fun hc => he (by injection hc)), if_neg he]

/-- Witness for C10 at the empty stream terminated by `io.EOF`. -/
theorem pageRead_never_nil_witness :
    ((Page.done Page.start, some GoErr.eof) : Page × Option GoErr).2 = some GoErr.eof
    ∧ ((Page.done Page.start, some GoErr.eof) : Page × Option GoErr).2 ≠ none
    ∧ Scrape [] GoErr.eof = some ((Page.done Page.start, some GoErr.eof).1,
        if GoErr.eof = GoErr.eof then none else some GoErr.eof) :=
  pageRead_never_nil [] GoErr.eof (Page.done Page.start, some GoErr.eof) rfl

end Metascraper
